import Mathlib

/-!
Verification development for the Adaptive Laguerre Filter of
src/src/python/adaptive_laguerre_filter.py (class AdaptiveLaguerreFilter),
with the dependency-free variant in src/src/python/test_laguerre_simple.py
for comparison.

Modelling conventions:
- Python floats are modelled by the rationals so that every arithmetic
  step of the source is exact; NaN entries of the numpy arrays are
  modelled by the type Option, with none standing for NaN.
- Python ints are modelled by the integers. Array indices that the code
  derives from loop counters are natural numbers, cast to the integers
  where the code compares them with configuration values.
- numpy slice reads clip to the array as Python slices do; scalar reads
  a[i] are modelled with getD (the code never performs an out-of-range
  scalar read when driven through calculate, see the comments below).
- the mutable instance state (self.L, self.ema_buffer, self.ema_initialized)
  is passed explicitly; calculate threads it through an accumulator so
  that a second call on the same instance starts from the mutated state,
  exactly as in the source.
-/

namespace ALF

/-- Enum SmoothMode of the source (SMA = 0, EMA = 1, WILDER = 2, LWMA = 3,
MEDIAN = 4). -/
inductive SmoothMode where
  | SMA
  | EMA
  | WILDER
  | LWMA
  | MEDIAN
deriving DecidableEq

/-- Python slice xs[start:stop] for 0 <= start (all uses below have a
nonnegative start); the stop clips to the length of the list as in Python. -/
def pySlice {α : Type} (xs : List α) (start stop : ℤ) : List α :=
  (xs.drop start.toNat).take (stop - start).toNat

/-- np.mean of a list (all uses below are guarded to nonempty lists). -/
def npmean (xs : List ℚ) : ℚ := xs.sum / (xs.length : ℚ)

/-- np.max of a list, none on the empty list. -/
def npmax : List ℚ → Option ℚ
  | [] => none
  | x :: xs => some (xs.foldl max x)

/-- np.min of a list, none on the empty list. -/
def npmin : List ℚ → Option ℚ
  | [] => none
  | x :: xs => some (xs.foldl min x)

/-- Method _trima_gen(array, period) of AdaptiveLaguerreFilter:
len1 = int(np.floor((period+1)*0.5)), len2 = int(np.ceil((period+1)*0.5)),
then for i in range(len2), if i < len(array), take the slice
array[max(0, len(array)-len1-i) : len(array)-i] and, when it is nonempty,
add its mean; finally divide by len2 when len2 > 0 else return 0.
Int.fdiv is floor division, so (period+1).fdiv 2 = floor((period+1)/2)
and (period+2).fdiv 2 = ceil((period+1)/2). -/
def trima_gen (array : List ℚ) (period : ℤ) : ℚ :=
  let len1 : ℤ := (period + 1).fdiv 2
  let len2 : ℤ := (period + 2).fdiv 2
  let n : ℤ := (array.length : ℤ)
  let s : ℚ := (List.range len2.toNat).foldl
    (fun sv (i : ℕ) =>
      if (i : ℤ) < n then
        let subset := pySlice array (max 0 (n - len1 - (i : ℤ))) (n - (i : ℤ))
        if 0 < subset.length then sv + npmean subset else sv
      else sv) 0
  if 0 < len2 then s / (len2 : ℚ) else 0

/-- The valid (non-NaN) entries of the trailing deviation window
diff[max(0, bar-length+1) : bar+1] used by _calculate_adaptive_gamma. -/
def validWindow (length : ℤ) (diff : List (Option ℚ)) (bar : ℕ) : List ℚ :=
  (pySlice diff (max 0 ((bar : ℤ) - length + 1)) ((bar : ℤ) + 1)).filterMap id

/-- Method _calculate_adaptive_gamma(diff, bar): returns 0 when bar < length
or when the trailing window holds no valid entry; otherwise the efficiency
ratio (diff[bar] - min) / (max - min) over the valid entries of the window,
or 0 when max - min = 0. The scalar read diff[bar] is modelled with getD;
a NaN there propagates into the quotient, which the none result models
(calculate always assigns diff[bar] before calling, so this never happens
on the path through calculate). -/
def adaptiveGamma (length : ℤ) (diff : List (Option ℚ)) (bar : ℕ) : Option ℚ :=
  if (bar : ℤ) < length then some 0
  else
    let valid := validWindow length diff bar
    match npmax valid, npmin valid with
    | some mx, some mn =>
      if mx - mn ≠ 0 then
        match diff.getD bar none with
        | some d => some ((d - mn) / (mx - mn))
        | none => none
      else some 0
    | _, _ => some 0

/-- Method _sma(array, period, bar): 0 when bar < period - 1, else the mean
of the non-NaN entries of array[bar-period+1 : bar+1], 0 when none is
valid. The guard makes the slice start nonnegative whenever period >= 1;
for period <= 0 the slice is empty exactly as in Python. -/
def sma (array : List (Option ℚ)) (period : ℤ) (bar : ℕ) : ℚ :=
  if (bar : ℤ) < period - 1 then 0
  else
    let values := pySlice array ((bar : ℤ) - period + 1) ((bar : ℤ) + 1)
    let valid := values.filterMap id
    if valid.length = 0 then 0 else valid.sum / (valid.length : ℚ)

/-- Method _median(array, period, bar): 0 when bar < period - 1, else
np.median of the non-NaN entries of array[bar-period+1 : bar+1] (sorted;
middle element for an odd count, mean of the two middle ones for an even
count), 0 when none is valid. -/
def median (array : List (Option ℚ)) (period : ℤ) (bar : ℕ) : ℚ :=
  if (bar : ℤ) < period - 1 then 0
  else
    let values := pySlice array ((bar : ℤ) - period + 1) ((bar : ℤ) + 1)
    let valid := values.filterMap id
    if valid.length = 0 then 0
    else
      let sorted := valid.mergeSort (fun a b => a ≤ b)
      if valid.length % 2 = 1 then sorted.getD (valid.length / 2) 0
      else (sorted.getD (valid.length / 2 - 1) 0 + sorted.getD (valid.length / 2) 0) / 2

/-- Method _lwma(array, period, bar): 0 when bar < period - 1, else the
weighted average of the valid entries array[bar - i] for i in
range(period) with weight period - i, 0 when the weight sum is 0.
Out-of-range reads are modelled as NaN (never reached through calculate). -/
def lwma (array : List (Option ℚ)) (period : ℤ) (bar : ℕ) : ℚ :=
  if (bar : ℤ) < period - 1 then 0
  else
    let ws : ℚ × ℚ := (List.range period.toNat).foldl
      (fun (p : ℚ × ℚ) (i : ℕ) =>
        let idx : ℤ := (bar : ℤ) - (i : ℤ)
        if 0 ≤ idx then
          match array.getD idx.toNat none with
          | some v => (p.1 + ((period - (i : ℤ) : ℤ) : ℚ), p.2 + v * ((period - (i : ℤ) : ℤ) : ℚ))
          | none => p
        else p) (0, 0)
    if 0 < ws.1 then ws.2 / ws.1 else 0

/-- Method _ema(price, period, bar): the first call stores the price;
later calls blend with alpha = 2 / (1 + period) against ema_buffer[1];
in both cases ema_buffer[1] is then set to ema_buffer[0] and that value
is returned. Result: (returned value, new ema_buffer). In Python a period
of -1 raises ZeroDivisionError; rational division by zero yields 0 here
(no claim exercises that configuration). -/
def emaStep (emaBuf : ℚ × ℚ) (emaInit : Bool) (price : ℚ) (period : ℤ) : ℚ × (ℚ × ℚ) :=
  let b0 : ℚ :=
    if emaInit = false then price
    else emaBuf.2 + (2 / (1 + (period : ℚ))) * (price - emaBuf.2)
  (b0, (b0, b0))

/-- The in-place snapshot self.L[:, 1] = self.L[:, 0] of _laguerre_filter:
every stage pair (current, previous) becomes (current, current). -/
def lagSnapshot (L : List (ℚ × ℚ)) : List (ℚ × ℚ) :=
  L.map (fun cp => (cp.1, cp.1))

/-- The stage-update loop of _laguerre_filter over the snapshotted state,
carrying the already-updated pair of the preceding stage exactly as the
in-place code reads self.L[i-1, 0] and self.L[i-1, 1] after updating row
i-1. In the bootstrap regime (strap = true, i.e. bar <= order) every
stage current becomes the price; otherwise stage 0 mixes the price with
its own previous value and stage i > 0 uses
-gam * L[i-1,0] + L[i-1,1] + gam * L[i,1]. -/
def lagLoop (gam p : ℚ) (strap : Bool) : Option (ℚ × ℚ) → List (ℚ × ℚ) → List (ℚ × ℚ)
  | _, [] => []
  | prev, (_, pr) :: rest =>
    let nc : ℚ :=
      if strap then p
      else
        match prev with
        | none => (1 - gam) * p + gam * pr
        | some pcp => -gam * pcp.1 + pcp.2 + gam * pr
    (nc, pr) :: lagLoop gam p strap (some (nc, pr)) rest

/-- The state transition of _laguerre_filter(price, gamma, bar):
gam = 1 - gamma, snapshot previous values, then update the stages in
index order. -/
def laguerreStep (order : ℤ) (p gamma : ℚ) (bar : ℕ) (L : List (ℚ × ℚ)) : List (ℚ × ℚ) :=
  lagLoop (1 - gamma) p (decide ((bar : ℤ) ≤ order)) none (lagSnapshot L)

/-- Full _laguerre_filter: the mutated stage state together with the
returned value, the triangular moving average of the new stage currents. -/
def laguerre_filter (order : ℤ) (p gamma : ℚ) (bar : ℕ) (L : List (ℚ × ℚ)) :
    List (ℚ × ℚ) × ℚ :=
  let newL := laguerreStep order p gamma bar L
  (newL, trima_gen (newL.map Prod.fst) order)

/-- Aggregation step of SimpleLaguerreFilter with _laguerre_filter in
test_laguerre_simple.py: sum(values) / len(values), the uniform mean of
the stage values. -/
def simple_trima (values : List ℚ) : ℚ := values.sum / (values.length : ℚ)

/-- Constructor arguments of AdaptiveLaguerreFilter, stored verbatim
(the constructor performs no validation of its own). -/
structure FilterConfig where
  length : ℤ
  order : ℤ
  adaptive_mode : Bool
  adaptive_smooth : ℤ
  adaptive_smooth_mode : SmoothMode

/-- The mutable per-instance state: self.L (stage pairs (current, previous)),
self.ema_buffer and self.ema_initialized. -/
structure FilterState where
  L : List (ℚ × ℚ)
  emaBuf : ℚ × ℚ
  emaInit : Bool

/-- The freshly initialized state of __init__: np.zeros((order, 2)),
np.zeros(2), False. -/
def initState (order : ℤ) : FilterState :=
  ⟨List.replicate order.toNat ((0 : ℚ), (0 : ℚ)), (0, 0), false⟩

/-- __init__(length, order, adaptive_mode, adaptive_smooth,
adaptive_smooth_mode). The body only assigns the arguments and allocates
np.zeros((order, 2)); the only failure is the numpy error raised for a
negative dimension, so any length, any adaptive_smooth and any
order >= 0 are accepted as given. -/
def mkFilter (length order : ℤ) (adaptive_mode : Bool) (adaptive_smooth : ℤ)
    (mode : SmoothMode) : Except String (FilterConfig × FilterState) :=
  if order < 0 then Except.error "negative dimensions are not allowed"
  else Except.ok (⟨length, order, adaptive_mode, adaptive_smooth, mode⟩, initState order)

/-- Accumulator of one calculate run: the four output arrays grown so far
(the current loop index is the length of laguerre) plus the instance
state. -/
structure CalcAcc where
  laguerre : List (Option ℚ)
  trend : List ℚ
  gammaArr : List (Option ℚ)
  diff : List (Option ℚ)
  L : List (ℚ × ℚ)
  emaBuf : ℚ × ℚ
  emaInit : Bool

/-- The loop index of the iteration about to run. -/
def accIdx (a : CalcAcc) : ℕ := a.laguerre.length

/-- Entry written to diff at index i: stays NaN when i < length (the first
continue) or when i = 0; otherwise abs(prices[i] - laguerre[i-1]) when
laguerre[i-1] is defined, else 0. -/
def diffEntry (cfg : FilterConfig) (p : ℚ) (a : CalcAcc) : Option ℚ :=
  let i := accIdx a
  if (i : ℤ) < cfg.length then none
  else if 0 < i then
    some (match a.laguerre.getD (i - 1) none with
          | some lag => |p - lag|
          | none => 0)
  else none

/-- The raw adaptive gamma of the current iteration: _calculate_adaptive_gamma
applied to the diff array as it stands after this iteration wrote diff[i]. -/
def rawGamma (cfg : FilterConfig) (p : ℚ) (a : CalcAcc) : Option ℚ :=
  adaptiveGamma cfg.length (a.diff ++ [diffEntry cfg p a]) (accIdx a)

/-- The gamma used at a computed step. In adaptive mode the raw value is
computed and then the smoothing branch runs; note that the SMA, LWMA and
MEDIAN branches do not receive the raw value at all: they are applied to
gamma_values, the array of previously emitted smoothed gammas, whose
entry at the current index is still NaN at this point (hence ++ [none]).
Only EMA and WILDER consume the raw value. rawGamma is never none on
this path: diff[i] is assigned in the same iteration whenever 0 < i, and
when i = 0 (possible only for length <= 0) the window of
_calculate_adaptive_gamma is empty and it returns 0; getD 0 is therefore
exact. In fixed mode gamma = 10 / (length + 9). -/
def gammaVal (cfg : FilterConfig) (p : ℚ) (a : CalcAcc) : ℚ :=
  let i := accIdx a
  if cfg.adaptive_mode then
    match cfg.adaptive_smooth_mode with
    | SmoothMode.SMA => sma (a.gammaArr ++ [none]) cfg.adaptive_smooth i
    | SmoothMode.EMA => (emaStep a.emaBuf a.emaInit ((rawGamma cfg p a).getD 0) cfg.adaptive_smooth).1
    | SmoothMode.WILDER => (emaStep a.emaBuf a.emaInit ((rawGamma cfg p a).getD 0) (2 * cfg.adaptive_smooth - 1)).1
    | SmoothMode.LWMA => lwma (a.gammaArr ++ [none]) cfg.adaptive_smooth i
    | SmoothMode.MEDIAN => median (a.gammaArr ++ [none]) cfg.adaptive_smooth i
  else 10 / ((cfg.length : ℚ) + 9)

/-- Entry written to gamma_values at index i (NaN outside computed steps). -/
def gammaEntry (cfg : FilterConfig) (p : ℚ) (a : CalcAcc) : Option ℚ :=
  let i := accIdx a
  if (i : ℤ) < cfg.length then none
  else if (i : ℤ) < 2 * cfg.length then none
  else some (gammaVal cfg p a)

/-- The ema state after this iteration: mutated only when a computed step
runs the EMA or WILDER smoothing branch. -/
def newEma (cfg : FilterConfig) (p : ℚ) (a : CalcAcc) : (ℚ × ℚ) × Bool :=
  let i := accIdx a
  if (i : ℤ) < cfg.length then (a.emaBuf, a.emaInit)
  else if (i : ℤ) < 2 * cfg.length then (a.emaBuf, a.emaInit)
  else if cfg.adaptive_mode then
    match cfg.adaptive_smooth_mode with
    | SmoothMode.EMA =>
      ((emaStep a.emaBuf a.emaInit ((rawGamma cfg p a).getD 0) cfg.adaptive_smooth).2, true)
    | SmoothMode.WILDER =>
      ((emaStep a.emaBuf a.emaInit ((rawGamma cfg p a).getD 0) (2 * cfg.adaptive_smooth - 1)).2, true)
    | _ => (a.emaBuf, a.emaInit)
  else (a.emaBuf, a.emaInit)

/-- The stage state produced by the _laguerre_filter call of a computed
step. -/
def stagesNew (cfg : FilterConfig) (p : ℚ) (a : CalcAcc) : List (ℚ × ℚ) :=
  laguerreStep cfg.order p (gammaVal cfg p a) (accIdx a) a.L

/-- Entry written to laguerre at index i (NaN outside computed steps). -/
def lagEntry (cfg : FilterConfig) (p : ℚ) (a : CalcAcc) : Option ℚ :=
  let i := accIdx a
  if (i : ℤ) < cfg.length then none
  else if (i : ℤ) < 2 * cfg.length then none
  else some (trima_gen ((stagesNew cfg p a).map Prod.fst) cfg.order)

/-- Lines 128-134 of calculate, as a function of laguerre[i],
laguerre[i-1] and trend[i-1]: when laguerre[i-1] is defined and strictly
positive, carry trend[i-1] forward and override with 1 on a strict rise
and 2 on a strict fall; otherwise trend[i] keeps its initialized value 0. -/
def trendUpdate (lagCur : ℚ) (lagPrev : Option ℚ) (trendPrev : ℚ) : ℚ :=
  match lagPrev with
  | some lp => if 0 < lp then (if lp < lagCur then 1 else if lagCur < lp then 2 else trendPrev) else 0
  | none => 0

/-- Entry written to trend at index i: 0 outside computed steps and while
i <= length + 2; otherwise trendUpdate applied to the value just written
to laguerre, laguerre[i-1] and trend[i-1]. -/
def trendEntry (cfg : FilterConfig) (p : ℚ) (a : CalcAcc) : ℚ :=
  let i := accIdx a
  if (i : ℤ) < cfg.length then 0
  else if (i : ℤ) < 2 * cfg.length then 0
  else if cfg.length + 2 < (i : ℤ) ∧ 0 < i then
    trendUpdate (trima_gen ((stagesNew cfg p a).map Prod.fst) cfg.order)
      (a.laguerre.getD (i - 1) none) (a.trend.getD (i - 1) 0)
  else 0

/-- One iteration of the calculate loop: appends one entry to each output
array and updates the instance state. -/
def stepOne (cfg : FilterConfig) (p : ℚ) (a : CalcAcc) : CalcAcc :=
  { laguerre := a.laguerre ++ [lagEntry cfg p a]
    trend := a.trend ++ [trendEntry cfg p a]
    gammaArr := a.gammaArr ++ [gammaEntry cfg p a]
    diff := a.diff ++ [diffEntry cfg p a]
    L := newL cfg p a
    emaBuf := (newEma cfg p a).1
    emaInit := (newEma cfg p a).2 }
where
  /-- The stage state after this iteration (mutated only at computed steps). -/
  newL (cfg : FilterConfig) (p : ℚ) (a : CalcAcc) : List (ℚ × ℚ) :=
    let i := accIdx a
    if (i : ℤ) < cfg.length then a.L
    else if (i : ℤ) < 2 * cfg.length then a.L
    else stagesNew cfg p a

/-- The for-loop of calculate over the price list. -/
def calcLoop (cfg : FilterConfig) : CalcAcc → List ℚ → CalcAcc
  | a, [] => a
  | a, p :: ps => calcLoop cfg (stepOne cfg p a) ps

/-- Method calculate(prices) on an instance whose state is st: returns the
final accumulator, holding the laguerre, trend and gamma output arrays
and the mutated instance state. -/
def calculate (cfg : FilterConfig) (st : FilterState) (prices : List ℚ) : CalcAcc :=
  calcLoop cfg ⟨[], [], [], [], st.L, st.emaBuf, st.emaInit⟩ prices

/-- The instance state left behind by a calculate run. -/
def stateOf (a : CalcAcc) : FilterState := ⟨a.L, a.emaBuf, a.emaInit⟩

/-- Loop invariant for the warm-up prefix of calculate: the output arrays
are aligned and every already-written entry at an index i with
i < 2 * length is NaN for laguerre and gamma and 0 for trend. -/
def SkipInv (cfg : FilterConfig) (a : CalcAcc) : Prop :=
  a.trend.length = a.laguerre.length ∧
  a.gammaArr.length = a.laguerre.length ∧
  ∀ i, i < a.laguerre.length → (i : ℤ) < 2 * cfg.length →
    a.laguerre.getD i (some 0) = none ∧ a.gammaArr.getD i (some 0) = none ∧
    a.trend.getD i 1 = 0

/-- Repeated invocation of _laguerre_filter with a fixed gamma on a price
list, the bar index increasing by one per sample: returns the final stage
state and the list of emitted (TriMA-aggregated) outputs. -/
def lagRun (order : ℤ) (gamma : ℚ) : ℕ → List (ℚ × ℚ) → List ℚ → List (ℚ × ℚ) × List ℚ
  | _, L, [] => (L, [])
  | bar, L, p :: ps =>
    let L1 := laguerreStep order p gamma bar L
    let rest := lagRun order gamma (bar + 1) L1 ps
    (rest.1, trima_gen (L1.map Prod.fst) order :: rest.2)

/-! ## Helper lemmas about the stage-update loop -/

theorem lagLoop_length (gam p : ℚ) (strap : Bool) :
    ∀ (M : List (ℚ × ℚ)) (prev : Option (ℚ × ℚ)),
      (lagLoop gam p strap prev M).length = M.length := by
  intro M
  induction M with
  | nil => intro prev; rfl
  | cons hd tl ih =>
    intro prev
    obtain ⟨c, pr⟩ := hd
    simp [lagLoop, ih]

theorem lagLoop_snd (gam p : ℚ) (strap : Bool) :
    ∀ (M : List (ℚ × ℚ)) (prev : Option (ℚ × ℚ)) (i : ℕ), i < M.length →
      ((lagLoop gam p strap prev M).getD i ((0 : ℚ), (0 : ℚ))).2 = (M.getD i ((0 : ℚ), (0 : ℚ))).2 := by
  intro M
  induction M with
  | nil => intro prev i hi; simp at hi
  | cons hd tl ih =>
    intro prev i hi
    obtain ⟨c, pr⟩ := hd
    cases i with
    | zero => simp [lagLoop]
    | succ j =>
      simp only [lagLoop, List.getD_cons_succ]
      exact ih _ j (by simpa using hi)

theorem lagLoop_boot (gam p : ℚ) :
    ∀ (M : List (ℚ × ℚ)) (prev : Option (ℚ × ℚ)),
      lagLoop gam p true prev M = M.map (fun cp => (p, cp.2)) := by
  intro M
  induction M with
  | nil => intro prev; rfl
  | cons hd tl ih =>
    intro prev
    obtain ⟨c, pr⟩ := hd
    simp [lagLoop, ih]

theorem lagLoop_zero (gam p : ℚ) (c pr : ℚ) (tl : List (ℚ × ℚ)) (prev : Option (ℚ × ℚ)) :
    (lagLoop gam p false prev ((c, pr) :: tl)).getD 0 ((0 : ℚ), (0 : ℚ)) =
      ((match prev with
        | none => (1 - gam) * p + gam * pr
        | some pcp => -gam * pcp.1 + pcp.2 + gam * pr), pr) := by
  cases prev <;> simp [lagLoop]

theorem lagLoop_succ (gam p : ℚ) :
    ∀ (M : List (ℚ × ℚ)) (prev : Option (ℚ × ℚ)) (j : ℕ), j + 1 < M.length →
      ((lagLoop gam p false prev M).getD (j + 1) ((0 : ℚ), (0 : ℚ))).1 =
        -gam * ((lagLoop gam p false prev M).getD j ((0 : ℚ), (0 : ℚ))).1 +
          ((lagLoop gam p false prev M).getD j ((0 : ℚ), (0 : ℚ))).2 +
          gam * (M.getD (j + 1) ((0 : ℚ), (0 : ℚ))).2 := by
  intro M
  induction M with
  | nil => intro prev j hj; simp at hj
  | cons hd tl ih =>
    intro prev j hj
    obtain ⟨c, pr⟩ := hd
    cases j with
    | zero =>
      match tl, hj with
      | (c1, pr1) :: tl2, _ => cases prev <;> simp [lagLoop]
    | succ j0 =>
      simp only [lagLoop, List.getD_cons_succ]
      exact ih _ j0 (by simpa using hj)

theorem lagSnapshot_getD (L : List (ℚ × ℚ)) (i : ℕ) (hi : i < L.length) :
    (lagSnapshot L).getD i ((0 : ℚ), (0 : ℚ)) =
      ((L.getD i ((0 : ℚ), (0 : ℚ))).1, (L.getD i ((0 : ℚ), (0 : ℚ))).1) := by
  unfold lagSnapshot
  rw [List.getD_eq_getElem _ _ (by simpa using hi), List.getD_eq_getElem _ _ hi]
  simp

theorem laguerreStep_length (order : ℤ) (p gamma : ℚ) (bar : ℕ) (L : List (ℚ × ℚ)) :
    (laguerreStep order p gamma bar L).length = L.length := by
  unfold laguerreStep
  rw [lagLoop_length]
  simp [lagSnapshot]

theorem map_const_replicate (p : ℚ) :
    ∀ (M : List (ℚ × ℚ)), M.map (fun _ => p) = List.replicate M.length p := by
  intro M
  induction M with
  | nil => rfl
  | cons hd tl ih => simp [ih, List.replicate_succ]

/-! ## C1 and C2: the Laguerre recursion -/

/-- C1: in the steady state (bar > order), _laguerre_filter snapshots every
stage current into its previous slot simultaneously, then updates the
stages in index order with current[0] = (1 - gam) * price + gam * previous[0]
and current[i] = -gam * current[i-1] + previous[i-1] + gam * previous[i]
for i > 0 (gam = 1 - gamma), and the value it aggregates and returns is
built from the new currents of all stages in stage order. -/
theorem c1_steady_step (order : ℤ) (gamma p : ℚ) (bar : ℕ) (L : List (ℚ × ℚ))
    (hbar : order < (bar : ℤ)) (gam : ℚ) (hgam : gam = 1 - gamma) :
    (laguerreStep order p gamma bar L).length = L.length ∧
    (∀ i, i < L.length →
      ((laguerreStep order p gamma bar L).getD i ((0 : ℚ), (0 : ℚ))).2 =
        (L.getD i ((0 : ℚ), (0 : ℚ))).1) ∧
    (0 < L.length →
      ((laguerreStep order p gamma bar L).getD 0 ((0 : ℚ), (0 : ℚ))).1 =
        (1 - gam) * p + gam * (L.getD 0 ((0 : ℚ), (0 : ℚ))).1) ∧
    (∀ i, i + 1 < L.length →
      ((laguerreStep order p gamma bar L).getD (i + 1) ((0 : ℚ), (0 : ℚ))).1 =
        -gam * ((laguerreStep order p gamma bar L).getD i ((0 : ℚ), (0 : ℚ))).1 +
          (L.getD i ((0 : ℚ), (0 : ℚ))).1 +
          gam * (L.getD (i + 1) ((0 : ℚ), (0 : ℚ))).1) ∧
    laguerre_filter order p gamma bar L =
      (laguerreStep order p gamma bar L,
        trima_gen ((laguerreStep order p gamma bar L).map Prod.fst) order) := by
  subst hgam
  have hdec : decide ((bar : ℤ) ≤ order) = false := by
    simp [decide_eq_false_iff_not, not_le, hbar]
  have hsnaplen : (lagSnapshot L).length = L.length := by simp [lagSnapshot]
  refine ⟨laguerreStep_length order p gamma bar L, ?_, ?_, ?_, rfl⟩
  · intro i hi
    unfold laguerreStep
    rw [hdec, lagLoop_snd _ _ _ _ _ _ (by rw [hsnaplen]; exact hi), lagSnapshot_getD L i hi]
  · intro hL
    unfold laguerreStep
    rw [hdec]
    match L, hL with
    | (c, pr) :: tl, _ =>
      have : lagSnapshot ((c, pr) :: tl) = (c, c) :: lagSnapshot tl := by simp [lagSnapshot]
      rw [this, lagLoop_zero]
      simp
  · intro i hi
    unfold laguerreStep
    rw [hdec]
    rw [lagLoop_succ _ _ _ _ _ (by rw [hsnaplen]; exact hi),
      lagLoop_snd _ _ _ _ _ _ (by rw [hsnaplen]; omega),
      lagSnapshot_getD L i (by omega), lagSnapshot_getD L (i + 1) hi]

/-- C1 witness: the steady-state characterization applied at order 2,
gamma 1/2, price 3, bar 5, state [(1, 9), (2, 7)]. -/
theorem c1_steady_step_witness :
    (laguerreStep 2 3 (1/2) 5 [((1 : ℚ), (9 : ℚ)), (2, 7)]).length = 2 ∧
    ((laguerreStep 2 3 (1/2) 5 [((1 : ℚ), (9 : ℚ)), (2, 7)]).getD 0 ((0 : ℚ), (0 : ℚ))).1 =
      (1 - 1/2) * 3 + (1/2) * 1 := by
  have h := c1_steady_step 2 (1/2) 3 5 [((1 : ℚ), (9 : ℚ)), (2, 7)] (by norm_num) (1/2) (by norm_num)
  exact ⟨h.1, by simpa using h.2.2.1 (by norm_num)⟩

/-- C2: while bar <= order, every stage current is set directly to the
incoming price (no recursion); consequently feeding any constant price p
for the first samples (all bars at most order) leaves all stage values
equal to p. -/
theorem c2_bootstrap (order : ℤ) (gamma p : ℚ) :
    (∀ (bar : ℕ) (L : List (ℚ × ℚ)), (bar : ℤ) ≤ order →
      (laguerreStep order p gamma bar L).map Prod.fst = List.replicate L.length p) ∧
    (∀ (k b0 : ℕ) (L : List (ℚ × ℚ)), 1 ≤ k →
      (∀ j, j < k → ((b0 + j : ℕ) : ℤ) ≤ order) →
      ((lagRun order gamma b0 L (List.replicate k p)).1).map Prod.fst =
        List.replicate L.length p) := by
  have hstep : ∀ (bar : ℕ) (L : List (ℚ × ℚ)), (bar : ℤ) ≤ order →
      (laguerreStep order p gamma bar L).map Prod.fst = List.replicate L.length p := by
    intro bar L hb
    unfold laguerreStep
    rw [decide_eq_true hb, lagLoop_boot]
    rw [List.map_map]
    have : (Prod.fst ∘ fun cp : ℚ × ℚ => (p, cp.2)) = fun _ => p := rfl
    rw [this, map_const_replicate]
    simp [lagSnapshot]
  refine ⟨hstep, ?_⟩
  intro k
  induction k with
  | zero => intro b0 L h1 _; omega
  | succ k0 ih =>
    intro b0 L _ hbars
    cases Nat.eq_zero_or_pos k0 with
    | inl h0 =>
      subst h0
      have hb0 : ((b0 : ℕ) : ℤ) ≤ order := by simpa using hbars 0 (by norm_num)
      have := hstep b0 L hb0
      simp only [List.replicate_succ, List.replicate_zero, lagRun]
      simpa [laguerreStep_length] using this
    | inr hpos =>
      have hb0 : ((b0 : ℕ) : ℤ) ≤ order := by simpa using hbars 0 (by omega)
      simp only [List.replicate_succ, lagRun]
      have hrec := ih (b0 + 1) (laguerreStep order p gamma b0 L) hpos
        (fun j hj => by
          have := hbars (j + 1) (by omega)
          convert this using 2
          omega)
      rw [hrec, laguerreStep_length]

/-- C2 witness: two constant samples 7 at bars 1 and 2 with order 2 leave
both stages of a two-stage state equal to 7. -/
theorem c2_bootstrap_witness :
    ((lagRun 2 (1/3) 1 [((4 : ℚ), (0 : ℚ)), (5, 0)] (List.replicate 2 7)).1).map Prod.fst =
      List.replicate 2 (7 : ℚ) := by
  have h := (c2_bootstrap 2 (1/3) 7).2 2 1 [((4 : ℚ), (0 : ℚ)), (5, 0)] (by norm_num)
    (by intro j hj; interval_cases j <;> norm_num)
  simpa using h

/-! ## C3: the TriMA aggregation -/

theorem fdiv_natCast (a b : ℕ) : ((a : ℤ)).fdiv (b : ℤ) = ((a / b : ℕ) : ℤ) := by
  cases a with
  | zero => rw [Nat.zero_div]; rfl
  | succ m => rfl

theorem pySlice_replicate (n : ℕ) (c : ℚ) (a b : ℤ) :
    pySlice (List.replicate n c) a b = List.replicate (min (b - a).toNat (n - a.toNat)) c := by
  unfold pySlice
  rw [List.drop_replicate, List.take_replicate]

theorem npmean_replicate (k : ℕ) (c : ℚ) (hk : k ≠ 0) : npmean (List.replicate k c) = c := by
  unfold npmean
  rw [List.sum_replicate, List.length_replicate, nsmul_eq_mul]
  field_simp

theorem foldl_add_const (c : ℚ) :
    ∀ (m : ℕ) (f : ℚ → ℕ → ℚ), (∀ sv i, i < m → f sv i = sv + c) →
      ∀ sv, (List.range m).foldl f sv = sv + m * c := by
  intro m
  induction m with
  | zero => intro f hf sv; simp
  | succ m0 ih =>
    intro f hf sv
    rw [List.range_succ, List.foldl_append, ih f (fun sv i hi => hf sv i (by omega)) sv]
    simp only [List.foldl_cons, List.foldl_nil, hf _ m0 (by omega)]
    push_cast
    ring

theorem trima_gen_replicate (n : ℕ) (c : ℚ) (hn : 1 ≤ n) :
    trima_gen (List.replicate n c) (n : ℤ) = c := by
  have e1 : ((n : ℤ) + 1).fdiv 2 = (((n + 1) / 2 : ℕ) : ℤ) := by
    rw [show ((n : ℤ) + 1) = (((n + 1 : ℕ)) : ℤ) by push_cast; ring]
    exact fdiv_natCast (n + 1) 2
  have e2 : ((n : ℤ) + 2).fdiv 2 = (((n + 2) / 2 : ℕ) : ℤ) := by
    rw [show ((n : ℤ) + 2) = (((n + 2 : ℕ)) : ℤ) by push_cast; ring]
    exact fdiv_natCast (n + 2) 2
  unfold trima_gen
  simp only [List.length_replicate, e1, e2, Int.toNat_natCast]
  rw [foldl_add_const c ((n + 2) / 2) _ ?_ 0]
  · rw [if_pos (by exact_mod_cast (show 0 < (n + 2) / 2 by omega) : (0:ℤ) < (((n + 2) / 2 : ℕ) : ℤ))]
    have hk2ne : (((n + 2) / 2 : ℕ) : ℚ) ≠ 0 := Nat.cast_ne_zero.mpr (by omega)
    rw [zero_add, mul_comm, mul_div_assoc, Int.cast_natCast, div_self hk2ne, mul_one]
  · intro sv i hi
    have hin : (i : ℤ) < ((n : ℕ) : ℤ) := by
      have : i < n := by omega
      exact_mod_cast this
    rw [if_pos hin, pySlice_replicate]
    have hk1 : 1 ≤ (n + 1) / 2 := by omega
    have hlen : 0 < (List.replicate (min ((((n : ℕ) : ℤ) - (i : ℤ)) - max 0 ((((n : ℕ) : ℤ)) - (((n + 1) / 2 : ℕ) : ℤ) - (i : ℤ))).toNat (n - (max 0 ((((n : ℕ) : ℤ)) - (((n + 1) / 2 : ℕ) : ℤ) - (i : ℤ))).toNat)) c).length := by
      rw [List.length_replicate]
      omega
    rw [if_pos hlen, npmean_replicate _ _ (by rw [List.length_replicate] at hlen; omega)]

/-- C3 counterexample: on the stage values [1, 0, 0] with order 3, the
method _trima_gen returns 1/4, not the uniform arithmetic mean 1/3. -/
theorem c3_trima_counterexample :
    trima_gen [1, 0, 0] 3 = 1 / 4 ∧
    trima_gen [1, 0, 0] 3 ≠ ([(1 : ℚ), 0, 0].sum) / 3 := by
  have h1 : Int.fdiv 4 2 = 2 := by decide
  have h2 : Int.fdiv 5 2 = 2 := by decide
  have h3 : Int.toNat 2 = 2 := rfl
  have he : trima_gen [(1 : ℚ), 0, 0] 3 = 1 / 4 := by
    simp only [trima_gen, List.length_cons, List.length_nil]
    norm_num [h1, h2, h3, pySlice, npmean, List.range_succ]
  refine ⟨he, ?_⟩
  rw [he]
  norm_num

set_option maxHeartbeats 1000000 in
/-- C3 amended: _trima_gen of the numpy variant is not the uniform mean in
general; it is always defined for order >= 1 and properly normalized
(constant stage values give back the constant), and it coincides with the
uniform mean sum / order of the dependency-free simple variant exactly in
the cases order = 1 and order = 2. -/
theorem c3_trima_amended :
    (∀ xs : List ℚ, 1 ≤ xs.length → xs.length ≤ 2 →
      trima_gen xs (xs.length : ℤ) = simple_trima xs) ∧
    (∀ (c : ℚ) (n : ℕ), 1 ≤ n → trima_gen (List.replicate n c) (n : ℤ) = c) := by
  refine ⟨?_, fun c n hn => trima_gen_replicate n c hn⟩
  intro xs h1 h2
  have f22 : Int.fdiv 2 2 = 1 := by decide
  have f32 : Int.fdiv 3 2 = 1 := by decide
  have f42 : Int.fdiv 4 2 = 2 := by decide
  have t1 : Int.toNat 1 = 1 := rfl
  have t2 : Int.toNat 2 = 2 := rfl
  match xs, h1, h2 with
  | [x], _, _ =>
    simp only [trima_gen, simple_trima, List.length_cons, List.length_nil]
    norm_num [f22, f32, t1, pySlice, npmean, List.range_succ]
  | [x, y], _, _ =>
    simp only [trima_gen, simple_trima, List.length_cons, List.length_nil]
    norm_num [f32, f42, t2, pySlice, npmean, List.range_succ]
    ring

/-- C3 witness: the amended statement applied at the stage values [3, 5]
(order 2) and at constant stage values 7 with order 3. -/
theorem c3_trima_amended_witness :
    trima_gen [(3 : ℚ), 5] 2 = simple_trima [(3 : ℚ), 5] ∧
    trima_gen (List.replicate 3 (7 : ℚ)) 3 = 7 := by
  constructor
  · have h := c3_trima_amended.1 [(3 : ℚ), 5] (by norm_num) (by norm_num)
    simpa using h
  · have h := c3_trima_amended.2 7 3 (by norm_num)
    simpa using h

/-! ## C5: the adaptive gamma computation -/

theorem le_foldl_max (l : List ℚ) : ∀ (a : ℚ), a ≤ l.foldl max a := by
  induction l with
  | nil => intro a; simp
  | cons h t ih =>
    intro a
    calc a ≤ max a h := le_max_left a h
    _ ≤ t.foldl max (max a h) := ih (max a h)

theorem mem_le_foldl_max (l : List ℚ) : ∀ (a x : ℚ), x ∈ l → x ≤ l.foldl max a := by
  induction l with
  | nil => intro a x hx; simp at hx
  | cons h t ih =>
    intro a x hx
    rcases List.mem_cons.mp hx with rfl | hx
    · calc x ≤ max a x := le_max_right a x
      _ ≤ t.foldl max (max a x) := le_foldl_max t (max a x)
    · exact ih (max a h) x hx

theorem foldl_min_le (l : List ℚ) : ∀ (a : ℚ), l.foldl min a ≤ a := by
  induction l with
  | nil => intro a; simp
  | cons h t ih =>
    intro a
    calc t.foldl min (min a h) ≤ min a h := ih (min a h)
    _ ≤ a := min_le_left a h

theorem foldl_min_le_mem (l : List ℚ) : ∀ (a x : ℚ), x ∈ l → l.foldl min a ≤ x := by
  induction l with
  | nil => intro a x hx; simp at hx
  | cons h t ih =>
    intro a x hx
    rcases List.mem_cons.mp hx with rfl | hx
    · calc t.foldl min (min a x) ≤ min a x := foldl_min_le t (min a x)
      _ ≤ x := min_le_right a x
    · exact ih (min a h) x hx

theorem le_npmax_of_mem (l : List ℚ) (x mx : ℚ) (hx : x ∈ l) (hmx : npmax l = some mx) :
    x ≤ mx := by
  match l, hx with
  | y :: ys, hx =>
    simp only [npmax, Option.some.injEq] at hmx
    subst hmx
    rcases List.mem_cons.mp hx with rfl | hx
    · exact le_foldl_max ys x
    · exact mem_le_foldl_max ys y x hx

theorem npmin_le_of_mem (l : List ℚ) (x mn : ℚ) (hx : x ∈ l) (hmn : npmin l = some mn) :
    mn ≤ x := by
  match l, hx with
  | y :: ys, hx =>
    simp only [npmin, Option.some.injEq] at hmn
    subst hmn
    rcases List.mem_cons.mp hx with rfl | hx
    · exact foldl_min_le ys x
    · exact foldl_min_le_mem ys y x hx

theorem npmin_le_npmax (l : List ℚ) (mx mn : ℚ) (hmx : npmax l = some mx)
    (hmn : npmin l = some mn) : mn ≤ mx := by
  match l, hmx with
  | y :: ys, hmx =>
    calc mn ≤ y := npmin_le_of_mem (y :: ys) y mn (by simp) hmn
    _ ≤ mx := le_npmax_of_mem (y :: ys) y mx (by simp) hmx

theorem validWindow_map_some (length : ℤ) (diff : List ℚ) (bar : ℕ) :
    validWindow length (diff.map some) bar =
      pySlice diff (max 0 ((bar : ℤ) - length + 1)) ((bar : ℤ) + 1) := by
  unfold validWindow pySlice
  rw [← List.map_drop, ← List.map_take, List.filterMap_map]
  simp [Function.comp_def]

theorem getD_mem_pySlice (l : List ℚ) (a b : ℤ) (idx : ℕ) (h0 : 0 ≤ a)
    (ha : a.toNat ≤ idx) (hb : (idx : ℤ) < b) (hl : idx < l.length) :
    l.getD idx 0 ∈ pySlice l a b := by
  unfold pySlice
  have hk2 : idx - a.toNat < (l.drop a.toNat).length := by
    rw [List.length_drop]
    omega
  have hk1 : idx - a.toNat < (b - a).toNat := by omega
  have hk3 : idx - a.toNat < ((l.drop a.toNat).take (b - a).toNat).length := by
    rw [List.length_take]
    omega
  have he : ((l.drop a.toNat).take (b - a).toNat)[idx - a.toNat] = l.getD idx 0 := by
    rw [List.getElem_take, List.getElem_drop, List.getD_eq_getElem _ _ hl]
    congr 1
    omega
  rw [← he]
  exact List.getElem_mem hk3

/-- C5: on every finite deviation history (no NaN entries) and in-range bar,
_calculate_adaptive_gamma returns a value (never raises, never NaN), that
value lies in [0, 1], it equals 0 whenever the valid window is degenerate
(max = min, e.g. a flat history), and once bar reaches the length it is
exactly (diff[bar] - min) / (max - min) over the trailing length-window
when that window is not degenerate. -/
theorem c5_adaptive_gamma (length : ℤ) (diff : List ℚ) (bar : ℕ)
    (hbar : bar < diff.length) :
    (adaptiveGamma length (diff.map some) bar).isSome = true ∧
    ∀ g, adaptiveGamma length (diff.map some) bar = some g →
      0 ≤ g ∧ g ≤ 1 ∧
      (∀ mx mn, npmax (validWindow length (diff.map some) bar) = some mx →
        npmin (validWindow length (diff.map some) bar) = some mn →
        mx = mn → g = 0) ∧
      (∀ mx mn, length ≤ (bar : ℤ) →
        npmax (validWindow length (diff.map some) bar) = some mx →
        npmin (validWindow length (diff.map some) bar) = some mn →
        mx ≠ mn → g = (diff.getD bar 0 - mn) / (mx - mn)) := by
  unfold adaptiveGamma
  by_cases hb : (bar : ℤ) < length
  · rw [if_pos hb]
    refine ⟨rfl, ?_⟩
    intro g hg
    obtain rfl : (0 : ℚ) = g := Option.some.inj hg
    exact ⟨le_refl 0, by norm_num, fun _ _ _ _ _ => rfl,
      fun _ _ hlen _ _ _ => absurd hlen (by omega)⟩
  · rw [if_neg hb]
    rcases hmx : npmax (validWindow length (diff.map some) bar) with _ | mx
    · rcases hmn : npmin (validWindow length (diff.map some) bar) with _ | mn
      · refine ⟨by simp [hmx, hmn], ?_⟩
        intro g hg
        simp only [hmx, hmn] at hg
        obtain rfl : (0 : ℚ) = g := by simpa using hg
        exact ⟨le_refl 0, by norm_num, fun mx' _ h _ _ => by simp [hmx] at h,
          fun mx' _ _ h _ _ => by simp [hmx] at h⟩
      · exfalso
        match hV : validWindow length (diff.map some) bar, hmx, hmn with
        | [], _, hmn => simp [npmin] at hmn
        | y :: ys, hmx, _ => simp [npmax] at hmx
    · rcases hmn : npmin (validWindow length (diff.map some) bar) with _ | mn
      · exfalso
        match hV : validWindow length (diff.map some) bar, hmx, hmn with
        | [], hmx, _ => simp [npmax] at hmx
        | y :: ys, _, hmn => simp [npmin] at hmn
      · have hVne : validWindow length (diff.map some) bar ≠ [] := by
          intro h
          rw [h] at hmx
          simp [npmax] at hmx
        have hlen1 : 1 ≤ length := by
          by_contra hc
          push_neg at hc
          apply hVne
          rw [validWindow_map_some]
          unfold pySlice
          have hz : ((bar : ℤ) + 1 - max 0 ((bar : ℤ) - length + 1)).toNat = 0 := by omega
          rw [hz, List.take_zero]
        have hmem : diff.getD bar 0 ∈ validWindow length (diff.map some) bar := by
          rw [validWindow_map_some]
          exact getD_mem_pySlice diff _ _ bar (le_max_left 0 _)
            (by omega) (by omega) hbar
        have hdlemx := le_npmax_of_mem _ _ _ hmem hmx
        have hmnled := npmin_le_of_mem _ _ _ hmem hmn
        have hgetD : (diff.map some).getD bar none = some (diff.getD bar 0) := by
          rw [List.getD_eq_getElem _ _ (by simpa using hbar),
            List.getElem_map, List.getD_eq_getElem _ _ hbar]
        by_cases hdeg : mx - mn = 0
        · simp only [hmx, hmn, hdeg, ne_eq, not_true_eq_false, if_false]
          refine ⟨rfl, ?_⟩
          intro g hg
          obtain rfl : (0 : ℚ) = g := by simpa using hg
          refine ⟨le_refl 0, by norm_num, fun _ _ _ _ _ => rfl, ?_⟩
          intro mx' mn' _ hmx' hmn' hne
          obtain rfl : mx = mx' := by simpa using hmx'
          obtain rfl : mn = mn' := by simpa using hmn'
          exact absurd (by linarith : mx = mn) hne
        · have hlt : mn < mx :=
            lt_of_le_of_ne (npmin_le_npmax _ _ _ hmx hmn) (by intro h; exact hdeg (by rw [h]; ring))
          simp only [hmx, hmn, hdeg, ne_eq, not_false_eq_true, if_true, hgetD]
          refine ⟨rfl, ?_⟩
          intro g hg
          obtain rfl : (diff.getD bar 0 - mn) / (mx - mn) = g := by simpa using hg
          have hpos : 0 < mx - mn := by linarith
          refine ⟨div_nonneg (by linarith) (le_of_lt hpos),
            (div_le_one hpos).mpr (by linarith), ?_, ?_⟩
          · intro mx' mn' hmx' hmn' heq
            obtain rfl : mx = mx' := by simpa using hmx'
            obtain rfl : mn = mn' := by simpa using hmn'
            exact absurd heq (by intro h; exact hdeg (by rw [h]; ring))
          · intro mx' mn' _ hmx' hmn' _
            obtain rfl : mx = mx' := by simpa using hmx'
            obtain rfl : mn = mn' := by simpa using hmn'
            rfl

/-- C5 witness: the flat deviation history [1/2, 1/2, 1/2] with length 2
and bar 2 has a degenerate window and yields exactly 0, inside [0, 1]. -/
theorem c5_adaptive_gamma_witness :
    adaptiveGamma 2 ([(1 : ℚ)/2, 1/2, 1/2].map some) 2 = some 0 ∧
    (0 : ℚ) ≤ 0 ∧ (0 : ℚ) ≤ 1 := by
  have he : adaptiveGamma 2 ([(1 : ℚ)/2, 1/2, 1/2].map some) 2 = some 0 := by
    have t2 : Int.toNat 2 = 2 := rfl
    norm_num [adaptiveGamma, validWindow, pySlice, npmax, npmin, t2,
      List.filterMap_cons, List.filterMap_nil, id_eq, max_self, min_self]
  have h := (c5_adaptive_gamma 2 [(1 : ℚ)/2, 1/2, 1/2] 2 (by norm_num)).2 0 he
  exact ⟨he, h.1, h.2.1⟩

/-! ## C7: the trend classification -/

/-- C7 counterexample: the trend step is not determined by the claimed
three-input contract: with previous filtered value -1 and current 0 the
current strictly exceeds the previous, yet the result is 0, not UP = 1;
and with both equal to -1 and previous trend 2 the result is 0, not the
carried-forward 2 — because the code additionally requires the previous
filtered value to be strictly positive. -/
theorem c7_trend_counterexample :
    trendUpdate 0 (some (-1)) 2 = 0 ∧ trendUpdate 0 (some (-1)) 2 ≠ 1 ∧
    trendUpdate (-1) (some (-1)) 2 = 0 ∧ trendUpdate (-1) (some (-1)) 2 ≠ 2 := by
  norm_num [trendUpdate]

/-- C7 amended: the trend step is a pure function of the current filtered
value, the previous filtered value and the previous trend, but the
claimed rise/fall/carry behavior holds only when the previous filtered
value is strictly positive; when it is absent, zero or negative the
result is the neutral 0 regardless of the previous trend. -/
theorem c7_trend_amended (c lp t : ℚ) :
    (0 < lp →
      (lp < c → trendUpdate c (some lp) t = 1) ∧
      (c < lp → trendUpdate c (some lp) t = 2) ∧
      (c = lp → trendUpdate c (some lp) t = t)) ∧
    (lp ≤ 0 → trendUpdate c (some lp) t = 0) ∧
    trendUpdate c none t = 0 := by
  simp only [trendUpdate]
  refine ⟨?_, ?_, trivial⟩
  · intro hpos
    refine ⟨?_, ?_, ?_⟩
    · intro hlt
      rw [if_pos hpos, if_pos hlt]
    · intro hlt
      rw [if_pos hpos, if_neg (by linarith), if_pos hlt]
    · intro heq
      rw [if_pos hpos, if_neg (by simp [heq]), if_neg (by simp [heq])]
  · intro hle
    rw [if_neg (by linarith)]

/-- C7 witness: the amended characterization applied on a rise, a fall, a
tie and a nonpositive previous value. -/
theorem c7_trend_amended_witness :
    trendUpdate 5 (some 4) 2 = 1 ∧ trendUpdate 3 (some 4) 2 = 2 ∧
    trendUpdate 4 (some 4) 2 = 2 ∧ trendUpdate 7 (some (-1)) 1 = 0 :=
  ⟨((c7_trend_amended 5 4 2).1 (by norm_num)).1 (by norm_num),
   ((c7_trend_amended 3 4 2).1 (by norm_num)).2.1 (by norm_num),
   ((c7_trend_amended 4 4 2).1 (by norm_num)).2.2 (by norm_num),
   (c7_trend_amended 7 (-1) 1).2.1 (by norm_num)⟩

/-! ## C8: construction-time validation -/

/-- C8 counterexample: the constructor silently accepts a zero length, a
zero order and a negative smoothing period, storing them verbatim
instead of failing fast. -/
theorem c8_mkFilter_counterexample :
    mkFilter 0 4 true 5 SmoothMode.MEDIAN =
      Except.ok (⟨0, 4, true, 5, SmoothMode.MEDIAN⟩, initState 4) ∧
    mkFilter 10 0 false (-2) SmoothMode.SMA =
      Except.ok (⟨10, 0, false, -2, SmoothMode.SMA⟩, initState 0) := by
  constructor <;> norm_num [mkFilter]

/-- C8 amended: __init__ performs no validation of its own: it succeeds
and stores every argument verbatim whenever order >= 0 (including
non-positive length and adaptiveSmoothPeriod; the smoothing mode is typed
by the SmoothMode enum), and it fails only for a negative order, as a
side effect of allocating the order-by-2 numpy state array. -/
theorem c8_mkFilter_amended (length order : ℤ) (am : Bool) (asm : ℤ) (mode : SmoothMode) :
    (0 ≤ order → mkFilter length order am asm mode =
      Except.ok (⟨length, order, am, asm, mode⟩, initState order)) ∧
    (order < 0 → ∃ msg, mkFilter length order am asm mode = Except.error msg) := by
  constructor
  · intro h
    unfold mkFilter
    rw [if_neg (by omega)]
  · intro h
    exact ⟨_, by unfold mkFilter; rw [if_pos h]⟩

/-- C8 witness: the amended statement at order 3 (accepted verbatim) and
order -1 (rejected by the array allocation). -/
theorem c8_mkFilter_amended_witness :
    mkFilter 7 3 true 5 SmoothMode.MEDIAN =
      Except.ok (⟨7, 3, true, 5, SmoothMode.MEDIAN⟩, initState 3) ∧
    ∃ msg, mkFilter 7 (-1) true 5 SmoothMode.MEDIAN = Except.error msg :=
  ⟨(c8_mkFilter_amended 7 3 true 5 SmoothMode.MEDIAN).1 (by norm_num),
   (c8_mkFilter_amended 7 (-1) true 5 SmoothMode.MEDIAN).2 (by norm_num)⟩

/-! ## C4: the adaptive smoothing applied by calculate -/

set_option maxHeartbeats 4000000 in
/-- C4: with SMA smoothing (length 2, order 2, adaptiveSmoothPeriod 2) on
the constant price series of six 1s, the raw efficiency ratio at step 5
is 1 (and 0 at step 4), so the claimed SMA of the trailing raw values
including the current one would be (0 + 1) / 2 = 1/2; yet the gamma the
code emits at step 5 is 0, because _sma is applied to gamma_values — the
previously emitted smoothed series whose current entry is still NaN —
and the raw value is discarded. -/
theorem c4_sma_smoothing_bug :
    (calculate ⟨2, 2, true, 2, SmoothMode.SMA⟩ (initState 2)
      (List.replicate 6 1)).gammaArr.getD 5 none = some 0 ∧
    adaptiveGamma 2 ((calculate ⟨2, 2, true, 2, SmoothMode.SMA⟩ (initState 2)
      (List.replicate 6 1)).diff) 5 = some 1 ∧
    adaptiveGamma 2 ((calculate ⟨2, 2, true, 2, SmoothMode.SMA⟩ (initState 2)
      (List.replicate 6 1)).diff) 4 = some 0 ∧
    ((0 : ℚ) + 1) / 2 ≠ 0 := by
  have t1 : Int.toNat 1 = 1 := rfl
  have t2 : Int.toNat 2 = 2 := rfl
  have t3 : Int.toNat 3 = 3 := rfl
  have t4 : Int.toNat 4 = 4 := rfl
  norm_num [t1, t2, t3, t4, List.filterMap_cons, List.filterMap_nil, id_eq, max_self, min_self,
    calculate, calcLoop, stepOne, stepOne.newL, lagEntry, gammaEntry,
    trendEntry, diffEntry, gammaVal, rawGamma, stagesNew, newEma, accIdx, initState,
    adaptiveGamma, validWindow, sma, lwma, median, emaStep, laguerreStep, lagLoop, lagSnapshot,
    trima_gen, pySlice, npmean, npmax, npmin, trendUpdate, List.range_succ, List.replicate,
    Int.fdiv]

/-! ## C10: calculate is stateful across calls on one instance -/

set_option maxHeartbeats 4000000 in
/-- C10: calling calculate twice on the same instance with the identical
input returns different laguerre arrays, because the stage state self.L
is initialized only at construction and never reset between calls:
with length 2, order 1, fixed gamma and five constant samples 12, the
first call emits 120/11 at index 4 and the second call emits 1440/121. -/
theorem c10_not_idempotent :
    (calculate ⟨2, 1, false, 5, SmoothMode.MEDIAN⟩ (initState 1)
      (List.replicate 5 12)).laguerre.getD 4 none = some (120/11) ∧
    (calculate ⟨2, 1, false, 5, SmoothMode.MEDIAN⟩
      (stateOf (calculate ⟨2, 1, false, 5, SmoothMode.MEDIAN⟩ (initState 1)
        (List.replicate 5 12)))
      (List.replicate 5 12)).laguerre.getD 4 none = some (1440/121) ∧
    (calculate ⟨2, 1, false, 5, SmoothMode.MEDIAN⟩ (initState 1)
      (List.replicate 5 12)).laguerre ≠
    (calculate ⟨2, 1, false, 5, SmoothMode.MEDIAN⟩
      (stateOf (calculate ⟨2, 1, false, 5, SmoothMode.MEDIAN⟩ (initState 1)
        (List.replicate 5 12)))
      (List.replicate 5 12)).laguerre := by
  have t1 : Int.toNat 1 = 1 := rfl
  have t2 : Int.toNat 2 = 2 := rfl
  have t3 : Int.toNat 3 = 3 := rfl
  have t4 : Int.toNat 4 = 4 := rfl
  refine ⟨?_, ?_, ?_⟩ <;>
    norm_num [t1, t2, t3, t4, calculate, stateOf, calcLoop, stepOne, stepOne.newL, lagEntry,
      gammaEntry, trendEntry, diffEntry, gammaVal, rawGamma, stagesNew, newEma, accIdx, initState,
      adaptiveGamma, validWindow, sma, lwma, median, emaStep, laguerreStep, lagLoop, lagSnapshot,
      trima_gen, pySlice, npmean, npmax, npmin, trendUpdate, List.range_succ, List.replicate,
      Int.fdiv]

/-! ## C9: shape of the calculate output and the warm-up prefix -/

theorem lagEntry_skip (cfg : FilterConfig) (p : ℚ) (a : CalcAcc)
    (h : ((accIdx a : ℕ) : ℤ) < 2 * cfg.length) : lagEntry cfg p a = none := by
  simp only [lagEntry]
  by_cases h1 : ((accIdx a : ℕ) : ℤ) < cfg.length
  · rw [if_pos h1]
  · rw [if_neg h1, if_pos h]

theorem gammaEntry_skip (cfg : FilterConfig) (p : ℚ) (a : CalcAcc)
    (h : ((accIdx a : ℕ) : ℤ) < 2 * cfg.length) : gammaEntry cfg p a = none := by
  simp only [gammaEntry]
  by_cases h1 : ((accIdx a : ℕ) : ℤ) < cfg.length
  · rw [if_pos h1]
  · rw [if_neg h1, if_pos h]

theorem trendEntry_skip (cfg : FilterConfig) (p : ℚ) (a : CalcAcc)
    (h : ((accIdx a : ℕ) : ℤ) < 2 * cfg.length) : trendEntry cfg p a = 0 := by
  simp only [trendEntry]
  by_cases h1 : ((accIdx a : ℕ) : ℤ) < cfg.length
  · rw [if_pos h1]
  · rw [if_neg h1, if_pos h]

theorem skipInv_step (cfg : FilterConfig) (p : ℚ) (a : CalcAcc) (h : SkipInv cfg a) :
    SkipInv cfg (stepOne cfg p a) := by
  obtain ⟨ht, hg, hp⟩ := h
  refine ⟨by simp [stepOne, ht], by simp [stepOne, hg], ?_⟩
  intro i hi hlt
  simp only [stepOne, List.length_append, List.length_cons, List.length_nil] at hi
  by_cases hcase : i < a.laguerre.length
  · simp only [stepOne]
    rw [List.getD_append _ _ _ _ hcase, List.getD_append _ _ _ _ (by rw [hg]; exact hcase),
      List.getD_append _ _ _ _ (by rw [ht]; exact hcase)]
    exact hp i hcase hlt
  · have hie : i = a.laguerre.length := by omega
    subst hie
    have hii : ((accIdx a : ℕ) : ℤ) < 2 * cfg.length := hlt
    simp only [stepOne]
    rw [List.getD_append_right _ _ _ _ (le_refl _),
      List.getD_append_right _ _ _ _ (by rw [hg]),
      List.getD_append_right _ _ _ _ (by rw [ht])]
    simp only [hg, ht, Nat.sub_self, List.getD_cons_zero]
    exact ⟨lagEntry_skip cfg p a hii, gammaEntry_skip cfg p a hii, trendEntry_skip cfg p a hii⟩

theorem skipInv_loop (cfg : FilterConfig) :
    ∀ (ps : List ℚ) (a : CalcAcc), SkipInv cfg a → SkipInv cfg (calcLoop cfg a ps) := by
  intro ps
  induction ps with
  | nil => intro a h; exact h
  | cons p ps ih =>
    intro a h
    exact ih (stepOne cfg p a) (skipInv_step cfg p a h)

theorem calcLoop_lengths (cfg : FilterConfig) :
    ∀ (ps : List ℚ) (a : CalcAcc),
      (calcLoop cfg a ps).laguerre.length = a.laguerre.length + ps.length ∧
      (calcLoop cfg a ps).trend.length = a.trend.length + ps.length ∧
      (calcLoop cfg a ps).gammaArr.length = a.gammaArr.length + ps.length := by
  intro ps
  induction ps with
  | nil => intro a; simp [calcLoop]
  | cons p ps ih =>
    intro a
    obtain ⟨h1, h2, h3⟩ := ih (stepOne cfg p a)
    have s1 : (stepOne cfg p a).laguerre.length = a.laguerre.length + 1 := by simp [stepOne]
    have s2 : (stepOne cfg p a).trend.length = a.trend.length + 1 := by simp [stepOne]
    have s3 : (stepOne cfg p a).gammaArr.length = a.gammaArr.length + 1 := by simp [stepOne]
    simp only [calcLoop]
    refine ⟨?_, ?_, ?_⟩
    · rw [h1, s1, List.length_cons]
      omega
    · rw [h2, s2, List.length_cons]
      omega
    · rw [h3, s3, List.length_cons]
      omega

/-- C9: for every configuration, instance state and price list of length n,
calculate itself returns laguerre, trend and gamma arrays of length
exactly n, and every index i with i < 2 * length holds laguerre[i] = NaN,
gamma[i] = NaN and trend[i] = 0: the warm-up prefix is marked undefined
and neutral by the component itself. -/
theorem c9_warmup_prefix (cfg : FilterConfig) (st : FilterState) (prices : List ℚ) :
    (calculate cfg st prices).laguerre.length = prices.length ∧
    (calculate cfg st prices).trend.length = prices.length ∧
    (calculate cfg st prices).gammaArr.length = prices.length ∧
    ∀ i, i < prices.length → (i : ℤ) < 2 * cfg.length →
      (calculate cfg st prices).laguerre.getD i (some 0) = none ∧
      (calculate cfg st prices).gammaArr.getD i (some 0) = none ∧
      (calculate cfg st prices).trend.getD i 1 = 0 := by
  have hlen := calcLoop_lengths cfg prices ⟨[], [], [], [], st.L, st.emaBuf, st.emaInit⟩
  have hinv := skipInv_loop cfg prices ⟨[], [], [], [], st.L, st.emaBuf, st.emaInit⟩
    ⟨rfl, rfl, by intro i hi _; simp at hi⟩
  unfold calculate
  refine ⟨by simpa using hlen.1, by simpa using hlen.2.1, by simpa using hlen.2.2, ?_⟩
  intro i hi hlt
  exact hinv.2.2 i (by simp only [List.length_nil] at hlen; omega) hlt

/-- C9 witness: with length 2 and five samples, the arrays have length 5
and index 3 (inside the warm-up prefix 2 * length = 4) holds NaN, NaN, 0. -/
theorem c9_warmup_prefix_witness :
    (calculate ⟨2, 3, true, 2, SmoothMode.MEDIAN⟩ (initState 3)
      [(1 : ℚ), 2, 3, 4, 5]).laguerre.length = 5 ∧
    (calculate ⟨2, 3, true, 2, SmoothMode.MEDIAN⟩ (initState 3)
      [(1 : ℚ), 2, 3, 4, 5]).laguerre.getD 3 (some 0) = none ∧
    (calculate ⟨2, 3, true, 2, SmoothMode.MEDIAN⟩ (initState 3)
      [(1 : ℚ), 2, 3, 4, 5]).gammaArr.getD 3 (some 0) = none ∧
    (calculate ⟨2, 3, true, 2, SmoothMode.MEDIAN⟩ (initState 3)
      [(1 : ℚ), 2, 3, 4, 5]).trend.getD 3 1 = 0 := by
  have h := c9_warmup_prefix ⟨2, 3, true, 2, SmoothMode.MEDIAN⟩ (initState 3) [(1 : ℚ), 2, 3, 4, 5]
  have he := h.2.2.2 3 (by norm_num) (by norm_num)
  exact ⟨by simpa using h.1, he.1, he.2.1, he.2.2⟩

/-! ## C6: bounded output -/

set_option maxHeartbeats 4000000 in
/-- C6 counterexample: a constant price series of seven 100s lies in
[100, 100] and the fixed gamma 5/6 lies in (0, 1), yet the filtered value
the code emits at bar 6 — after the bootstrap period of order = 4 samples
— is 19375/1944, far below 100: driven through calculate with
2 * length > order, the bootstrap branch of _laguerre_filter is
unreachable and the recursion starts from the zero-initialized state. -/
theorem c6_bounded_counterexample :
    (∀ p ∈ List.replicate 7 (100 : ℚ), 100 ≤ p ∧ p ≤ 100) ∧
    (calculate ⟨3, 4, false, 5, SmoothMode.MEDIAN⟩ (initState 4)
      (List.replicate 7 100)).gammaArr.getD 6 none = some (5/6) ∧
    (0 : ℚ) < 5/6 ∧ (5/6 : ℚ) < 1 ∧ (4 : ℤ) < 6 ∧
    (calculate ⟨3, 4, false, 5, SmoothMode.MEDIAN⟩ (initState 4)
      (List.replicate 7 100)).laguerre.getD 6 none = some (19375/1944) ∧
    ¬(100 ≤ (19375/1944 : ℚ)) := by
  have t1 : Int.toNat 1 = 1 := rfl
  have t2 : Int.toNat 2 = 2 := rfl
  have t3 : Int.toNat 3 = 3 := rfl
  have t4 : Int.toNat 4 = 4 := rfl
  refine ⟨?_, ?_, by norm_num, by norm_num, by norm_num, ?_, by norm_num⟩
  · intro p hp
    rw [List.eq_of_mem_replicate hp]
    norm_num
  all_goals
    norm_num [t1, t2, t3, t4, calculate, calcLoop, stepOne, stepOne.newL, lagEntry, gammaEntry,
      trendEntry, diffEntry, gammaVal, rawGamma, stagesNew, newEma, accIdx, initState,
      adaptiveGamma, validWindow, sma, lwma, median, emaStep, laguerreStep, lagLoop, lagSnapshot,
      trima_gen, pySlice, npmean, npmax, npmin, trendUpdate, List.range_succ, List.replicate,
      Int.fdiv]



theorem convex_mem (t a b lo hi : ℚ) (ht0 : 0 ≤ t) (ht1 : t ≤ 1) (ha1 : lo ≤ a)
    (ha2 : a ≤ hi) (hb1 : lo ≤ b) (hb2 : b ≤ hi) :
    lo ≤ t * a + (1 - t) * b ∧ t * a + (1 - t) * b ≤ hi := by
  constructor <;> nlinarith

theorem avg_mem (a b lo hi : ℚ) (ha1 : lo ≤ a) (ha2 : a ≤ hi) (hb1 : lo ≤ b) (hb2 : b ≤ hi) :
    lo ≤ (a + b) / 2 ∧ (a + b) / 2 ≤ hi := by
  constructor <;> linarith

theorem trima_gen_pair (a b : ℚ) : trima_gen [a, b] 2 = (a + b) / 2 := by
  have f32 : Int.fdiv 3 2 = 1 := by decide
  have f42 : Int.fdiv 4 2 = 2 := by decide
  have t2 : Int.toNat 2 = 2 := rfl
  simp only [trima_gen, List.length_cons, List.length_nil]
  norm_num [f32, f42, t2, pySlice, npmean, List.range_succ]
  ring

theorem lag2_step_boot (gamma p x0 x1 px0 px1 : ℚ) (bar : ℕ) (h : (bar : ℤ) ≤ 2) :
    laguerreStep 2 p gamma bar [(x0, px0), (x1, px1)] = [(p, x0), (p, x1)] := by
  unfold laguerreStep
  rw [decide_eq_true h, lagLoop_boot]
  simp [lagSnapshot]

theorem lag2_step_steady (gamma p x0 x1 px0 px1 : ℚ) (bar : ℕ) (h : ¬((bar : ℤ) ≤ 2)) :
    laguerreStep 2 p gamma bar [(x0, px0), (x1, px1)] =
      [(gamma * p + (1 - gamma) * x0, x0),
       (-(1 - gamma) * (gamma * p + (1 - gamma) * x0) + x0 + (1 - gamma) * x1, x1)] := by
  unfold laguerreStep
  rw [decide_eq_false h]
  simp only [lagSnapshot, List.map_cons, List.map_nil, lagLoop, Bool.false_eq_true, if_false]
  refine List.cons_eq_cons.mpr ⟨?_, List.cons_eq_cons.mpr ⟨?_, rfl⟩⟩
  · exact Prod.ext (by ring) rfl
  · exact Prod.ext (by ring) rfl

theorem lag2_run_bounded (gamma lo hi : ℚ) (h0 : 0 < gamma) (h1 : gamma < 1) :
    ∀ (ps : List ℚ) (b0 : ℕ) (x0 x1 px0 px1 : ℚ),
      (∀ p ∈ ps, lo ≤ p ∧ p ≤ hi) →
      ((b0 : ℤ) ≤ 2 ∨
        (lo ≤ x0 ∧ x0 ≤ hi ∧ lo ≤ (x0 + x1) / 2 ∧ (x0 + x1) / 2 ≤ hi)) →
      ∀ o ∈ (lagRun 2 gamma b0 [(x0, px0), (x1, px1)] ps).2, lo ≤ o ∧ o ≤ hi := by
  intro ps
  induction ps with
  | nil =>
    intro b0 x0 x1 px0 px1 _ _ o ho
    simp [lagRun] at ho
  | cons p ps ih =>
    intro b0 x0 x1 px0 px1 hps hinv o ho
    have hp := hps p (List.mem_cons_self p ps)
    have hps' : ∀ q ∈ ps, lo ≤ q ∧ q ≤ hi := fun q hq => hps q (List.mem_cons_of_mem p hq)
    simp only [lagRun] at ho
    by_cases hb : (b0 : ℤ) ≤ 2
    · rw [lag2_step_boot gamma p x0 x1 px0 px1 b0 hb] at ho
      rw [show ([(p, x0), (p, x1)].map Prod.fst) = [p, p] from rfl, trima_gen_pair] at ho
      rcases List.mem_cons.mp ho with rfl | ho
      · exact avg_mem p p lo hi hp.1 hp.2 hp.1 hp.2
      · exact ih (b0 + 1) p p x0 x1 hps'
          (Or.inr ⟨hp.1, hp.2, by constructor <;> linarith⟩) o ho
    · rcases hinv with hb' | ⟨hx0l, hx0h, hml, hmh⟩
      · exact absurd hb' hb
      set y0 := gamma * p + (1 - gamma) * x0 with hy0
      set y1 := -(1 - gamma) * y0 + x0 + (1 - gamma) * x1 with hy1
      have hy0b : lo ≤ y0 ∧ y0 ≤ hi :=
        convex_mem gamma p x0 lo hi (le_of_lt h0) (le_of_lt h1) hp.1 hp.2 hx0l hx0h
      have havg : lo ≤ (y0 + x0) / 2 ∧ (y0 + x0) / 2 ≤ hi :=
        avg_mem y0 x0 lo hi hy0b.1 hy0b.2 hx0l hx0h
      have hmean : (y0 + y1) / 2 = gamma * ((y0 + x0) / 2) + (1 - gamma) * ((x0 + x1) / 2) := by
        rw [hy1]
        ring
      have hmb : lo ≤ (y0 + y1) / 2 ∧ (y0 + y1) / 2 ≤ hi := by
        rw [hmean]
        exact convex_mem gamma ((y0 + x0) / 2) ((x0 + x1) / 2) lo hi
          (le_of_lt h0) (le_of_lt h1) havg.1 havg.2 hml hmh
      rw [lag2_step_steady gamma p x0 x1 px0 px1 b0 hb] at ho
      rw [show ([(y0, x0), (y1, x1)].map Prod.fst) = [y0, y1] from rfl,
        trima_gen_pair] at ho
      rcases List.mem_cons.mp ho with rfl | ho
      · exact hmb
      · exact ih (b0 + 1) y0 y1 x0 x1 hps' (Or.inr ⟨hy0b.1, hy0b.2, hmb.1, hmb.2⟩) o ho

/-- C6 amended: the bounded-output property holds for the recursion only
once its stage state is in range (through calculate with
2 * length > order the bootstrap branch is unreachable and the
zero-initialized state drives post-bootstrap outputs outside [lo, hi]).
What does hold, for any gamma in (0, 1) and prices within [lo, hi]:
stage 0 always stays within [lo, hi] (any order), and for order 2 every
emitted TriMA output of a run stays within [lo, hi], both when the run
starts inside the bootstrap regime (bar <= order) and when it starts from
any state whose stage-0 value and stage mean lie within [lo, hi]. -/
theorem c6_bounded_amended :
    (∀ (order : ℤ) (gamma p lo hi : ℚ) (bar : ℕ) (L : List (ℚ × ℚ)),
      0 < gamma → gamma < 1 → lo ≤ p → p ≤ hi → 0 < L.length →
      lo ≤ (L.getD 0 ((0 : ℚ), (0 : ℚ))).1 → (L.getD 0 ((0 : ℚ), (0 : ℚ))).1 ≤ hi →
      lo ≤ ((laguerreStep order p gamma bar L).getD 0 ((0 : ℚ), (0 : ℚ))).1 ∧
        ((laguerreStep order p gamma bar L).getD 0 ((0 : ℚ), (0 : ℚ))).1 ≤ hi) ∧
    (∀ (gamma lo hi : ℚ) (ps : List ℚ) (b0 : ℕ) (x0 x1 px0 px1 : ℚ),
      0 < gamma → gamma < 1 →
      (∀ p ∈ ps, lo ≤ p ∧ p ≤ hi) →
      ((b0 : ℤ) ≤ 2 ∨
        (lo ≤ x0 ∧ x0 ≤ hi ∧ lo ≤ (x0 + x1) / 2 ∧ (x0 + x1) / 2 ≤ hi)) →
      ∀ o ∈ (lagRun 2 gamma b0 [(x0, px0), (x1, px1)] ps).2, lo ≤ o ∧ o ≤ hi) := by
  constructor
  · intro order gamma p lo hi bar L h0 h1 hpl hph hL hx0l hx0h
    match L, hL with
    | (c, pr) :: tl, _ =>
      have hc1 : lo ≤ c := by simpa using hx0l
      have hc2 : c ≤ hi := by simpa using hx0h
      unfold laguerreStep
      rw [show lagSnapshot ((c, pr) :: tl) = (c, c) :: lagSnapshot tl from by simp [lagSnapshot]]
      cases hdec : decide ((bar : ℤ) ≤ order) with
      | true =>
        rw [lagLoop_boot]
        simp only [List.map_cons, List.getD_cons_zero]
        exact ⟨hpl, hph⟩
      | false =>
        rw [lagLoop_zero]
        simp only [List.getD_cons_zero]
        have he : (1 - (1 - gamma)) * p + (1 - gamma) * c = gamma * p + (1 - gamma) * c := by
          ring
        simp only [he]
        exact convex_mem gamma p c lo hi (le_of_lt h0) (le_of_lt h1) hpl hph hc1 hc2
  · intro gamma lo hi ps b0 x0 x1 px0 px1 h0 h1 hps hinv
    exact lag2_run_bounded gamma lo hi h0 h1 ps b0 x0 x1 px0 px1 hps hinv

set_option maxHeartbeats 1600000 in
/-- C6 witness: the amended run statement applied with gamma 1/2 from the
in-range state with both stage currents 1/2 at bar 3 on the price list
[0, 1] bounded by [0, 1]: the first emitted output 7/16 lies in [0, 1]. -/
theorem c6_bounded_amended_witness : (0 : ℚ) ≤ 7/16 ∧ (7/16 : ℚ) ≤ 1 := by
  have t1 : Int.toNat 1 = 1 := rfl
  have t2 : Int.toNat 2 = 2 := rfl
  have hmem : (7/16 : ℚ) ∈ (lagRun 2 (1/2) 3 [((1 : ℚ)/2, 1/2), (1/2, 1/2)] [0, 1]).2 := by
    norm_num [t1, t2, lagRun, laguerreStep, lagSnapshot, lagLoop, trima_gen, pySlice,
      npmean, List.range_succ, Int.fdiv]
  exact c6_bounded_amended.2 (1/2) 0 1 [0, 1] 3 (1/2) (1/2) (1/2) (1/2) (by norm_num)
    (by norm_num) (by intro p hp; fin_cases hp <;> norm_num)
    (Or.inr (by norm_num)) (7/16) hmem

end ALF
